import Mathlib

/-!
Verification development for the cell-niches pipeline
(`src/cell_niches.py`, `src/utils.py`, `src/phenotype_density.py`).

The Python sources are shallowly embedded here: pandas DataFrames become
lists of structures, numpy numeric values become rationals (`ℚ`) where the
code is exact arithmetic over finitely many rows, and reals (`ℝ`) where the
code applies the transcendental `log1p`.  Fallible pandas operations
(`merge` with `validate="one_to_one"`) return `Option`.
-/

namespace CellNiches

/-- A row of the per-slide points table: identity `(wsi_uuid, polygon_uuid)`
and a 2D coordinate, as consumed by `Neighbourhood.__call__`
(`src/cell_niches.py`).  `slide` stands for `wsi_uuid`, `cell` for
`polygon_uuid`. -/
structure Point where
  slide : Nat
  cell : Nat
  x : ℚ
  y : ℚ
deriving DecidableEq

/-- A row of the marks table: identity `(wsi_uuid, polygon_uuid)` and the
numeric marker vector (the multi-hot columns). -/
structure Mark where
  slide : Nat
  cell : Nat
  vec : List ℚ
deriving DecidableEq

/-- A row of the merged dataframe `df = points.merge(marks, ...)` in
`Neighbourhood.__call__`: identity, coordinate and marker vector. -/
structure Row where
  slide : Nat
  cell : Nat
  x : ℚ
  y : ℚ
  vec : List ℚ
deriving DecidableEq

def ptKey (p : Point) : Nat × Nat := (p.slide, p.cell)

def mkKey (m : Mark) : Nat × Nat := (m.slide, m.cell)

def rowKey (r : Row) : Nat × Nat := (r.slide, r.cell)

/-- One merged row for point `p`: the unique mark row with the same
`(wsi_uuid, polygon_uuid)` key, if present.  pandas `merge` with
`how="inner"` keeps left rows that have a match and silently drops the
rest. -/
def mergeRow (mks : List Mark) (p : Point) : Option Row :=
  (mks.find? (fun m => mkKey m == ptKey p)).map
    (fun m => ⟨p.slide, p.cell, p.x, p.y, m.vec⟩)

/-- `points.merge(marks, on=["wsi_uuid", "polygon_uuid"], validate="one_to_one")`
from `Neighbourhood.__call__` (`src/cell_niches.py` line 59).  pandas
`validate="one_to_one"` raises `MergeError` exactly when the merge keys are
duplicated on either side; otherwise it performs an inner join that keeps
the left (points) row order. -/
def merge (pts : List Point) (mks : List Mark) : Option (List Row) :=
  if (pts.map ptKey).Nodup ∧ (mks.map mkKey).Nodup then
    some (pts.filterMap (mergeRow mks))
  else none

/-- Elementwise vector addition (numpy / pandas column-aligned sum).  Rows
of one DataFrame all share the schema, so the padding branch is only for
totality. -/
def addVec : List ℚ → List ℚ → List ℚ
  | [], ys => ys
  | x :: xs, [] => x :: xs
  | x :: xs, y :: ys => (x + y) :: addVec xs ys

/-- `multihot.iloc[n].sum(0)`: elementwise sum of a list of mark vectors. -/
def vecSum (vs : List (List ℚ)) : List ℚ := vs.foldr addVec []

def coord (r : Row) : ℚ × ℚ := (r.x, r.y)

def sqDist (a b : ℚ × ℚ) : ℚ :=
  (a.1 - b.1) * (a.1 - b.1) + (a.2 - b.2) * (a.2 - b.2)

/-- Membership in `KDTree(xy).query_ball_point(xy, r=self.radius)`
(`src/cell_niches.py` line 66): all points at Euclidean distance at most
`r`.  For a negative radius no point qualifies (distances are
nonnegative); for `0 ≤ r`, distance `≤ r` is squared distance `≤ r * r`. -/
def inRadius (r : ℚ) (a b : ℚ × ℚ) : Bool :=
  decide (0 ≤ r ∧ sqDist a b ≤ r * r)

/-- The aggregated marker vector of one row:
`multihot.iloc[n].sum(0)` where `n` are the neighbour indices of that
row (`src/cell_niches.py` line 68). -/
def aggregateRow (r : ℚ) (df : List Row) (row : Row) : List ℚ :=
  vecSum ((df.filter (fun q => inRadius r (coord row) (coord q))).map (·.vec))

/-- `Neighbourhood(radius)(points, marks)` (`src/cell_niches.py` lines
47-74): merge points with marks, then for each merged row sum the marker
vectors of all rows within `radius`; the output keeps the merged index
`(wsi_uuid, polygon_uuid)` and row order. -/
def neighbourhood (r : ℚ) (pts : List Point) (mks : List Mark) :
    Option (List ((Nat × Nat) × List ℚ)) :=
  (merge pts mks).map
    (fun df => df.map (fun row => (rowKey row, aggregateRow r df row)))

/-! ### Helper lemmas about `addVec` and `vecSum` -/

theorem addVec_nil_right (a : List ℚ) : addVec a [] = a := by
  cases a <;> rfl

theorem addVec_comm (a b : List ℚ) : addVec a b = addVec b a := by
  induction a generalizing b with
  | nil => cases b <;> rfl
  | cons x xs ih =>
    cases b with
    | nil => rfl
    | cons y ys => simp [addVec, ih, add_comm]

theorem addVec_assoc (a b c : List ℚ) :
    addVec (addVec a b) c = addVec a (addVec b c) := by
  induction a generalizing b c with
  | nil => rfl
  | cons x xs ih =>
    cases b with
    | nil => rfl
    | cons y ys =>
      cases c with
      | nil => rfl
      | cons z zs => simp [addVec, ih, add_assoc]

theorem addVec_left_comm (a b c : List ℚ) :
    addVec a (addVec b c) = addVec b (addVec a c) := by
  rw [← addVec_assoc, addVec_comm a b, addVec_assoc]

theorem addVec_getD (a b : List ℚ) (i : Nat) :
    (addVec a b).getD i 0 = a.getD i 0 + b.getD i 0 := by
  induction a generalizing b i with
  | nil => simp [addVec]
  | cons x xs ih =>
    cases b with
    | nil => simp [addVec]
    | cons y ys =>
      cases i with
      | zero => simp [addVec]
      | succ j => simpa [addVec] using ih ys j

theorem vecSum_cons (v : List ℚ) (vs : List (List ℚ)) :
    vecSum (v :: vs) = addVec v (vecSum vs) := rfl

theorem vecSum_getD (vs : List (List ℚ)) (i : Nat) :
    (vecSum vs).getD i 0 = (vs.map (fun v => v.getD i 0)).sum := by
  induction vs with
  | nil => simp [vecSum]
  | cons v vs ih => rw [vecSum_cons, addVec_getD, ih, List.map_cons, List.sum_cons]

theorem vecSum_perm {l₁ l₂ : List (List ℚ)} (h : l₁.Perm l₂) :
    vecSum l₁ = vecSum l₂ := by
  induction h with
  | nil => rfl
  | cons x _ ih => simp [vecSum_cons, ih]
  | swap x y l => simp [vecSum_cons, addVec_left_comm]
  | trans _ _ ih₁ ih₂ => exact ih₁.trans ih₂

/-! ### Helper lemmas about `merge` -/

theorem merge_eq_some {pts : List Point} {mks : List Mark} {df : List Row}
    (h : merge pts mks = some df) :
    (pts.map ptKey).Nodup ∧ (mks.map mkKey).Nodup ∧
      df = pts.filterMap (mergeRow mks) := by
  by_cases hc : (pts.map ptKey).Nodup ∧ (mks.map mkKey).Nodup
  · refine ⟨hc.1, hc.2, ?_⟩
    simp only [merge, if_pos hc, Option.some.injEq] at h
    exact h.symm
  · simp [merge, if_neg hc] at h

theorem mergeRow_eq_some {mks : List Mark} {p : Point} {row : Row}
    (h : mergeRow mks p = some row) :
    ∃ m ∈ mks, mkKey m = ptKey p ∧
      row = ⟨p.slide, p.cell, p.x, p.y, m.vec⟩ := by
  unfold mergeRow at h
  cases hf : mks.find? (fun m => mkKey m == ptKey p) with
  | none => rw [hf] at h; simp at h
  | some m =>
    rw [hf] at h
    refine ⟨m, List.mem_of_find?_eq_some hf, ?_, ?_⟩
    · have := List.find?_some hf
      simpa using this
    · simpa using h.symm

/-- Every row of the merged dataframe carries the marker vector of some row
of the marks table. -/
theorem merge_row_vec {pts : List Point} {mks : List Mark} {df : List Row}
    (h : merge pts mks = some df) {row : Row} (hrow : row ∈ df) :
    ∃ m ∈ mks, row.vec = m.vec := by
  obtain ⟨-, -, rfl⟩ := merge_eq_some h
  obtain ⟨p, -, hp⟩ := List.mem_filterMap.mp hrow
  obtain ⟨m, hm, -, rfl⟩ := mergeRow_eq_some hp
  exact ⟨m, hm, rfl⟩

/-! ### Order lemmas about sums over filters -/

theorem sum_filter_mono {α : Type} (p q : α → Bool) (f : α → ℚ) (l : List α)
    (hpq : ∀ a, p a = true → q a = true) (hf : ∀ a ∈ l, 0 ≤ f a) :
    ((l.filter p).map f).sum ≤ ((l.filter q).map f).sum := by
  induction l with
  | nil => simp
  | cons a l ih =>
    have hf' : ∀ b ∈ l, 0 ≤ f b := fun b hb => hf b (List.mem_cons_of_mem a hb)
    by_cases hp : p a = true
    · have hq := hpq a hp
      simp only [List.filter_cons, hp, hq, if_pos, List.map_cons, List.sum_cons]
      exact add_le_add_left (ih hf') (f a)
    · by_cases hq : q a = true
      · simp only [List.filter_cons, hp, hq, if_pos, Bool.false_eq_true,
          if_neg, not_false_iff, List.map_cons, List.sum_cons]
        calc ((l.filter p).map f).sum ≤ ((l.filter q).map f).sum := ih hf'
        _ ≤ f a + ((l.filter q).map f).sum :=
            le_add_of_nonneg_left (hf a (List.mem_cons_self a l))
      · simp only [List.filter_cons, hp, hq, Bool.false_eq_true, if_neg,
          not_false_iff]
        exact ih hf'

theorem getD_nonneg {v : List ℚ} (h : ∀ x ∈ v, 0 ≤ x) (i : Nat) :
    0 ≤ v.getD i 0 := by
  induction v generalizing i with
  | nil => simp [List.getD]
  | cons x xs ih =>
    cases i with
    | zero => exact h x (List.mem_cons_self x xs)
    | succ j =>
      exact ih (fun y hy => h y (List.mem_cons_of_mem x hy)) j

theorem inRadius_self {r : ℚ} (hr : 0 ≤ r) (c : ℚ × ℚ) :
    inRadius r c c = true := by
  simp only [inRadius, sqDist, decide_eq_true_eq]
  constructor
  · exact hr
  · simpa using mul_nonneg hr hr

theorem inRadius_mono {r₁ r₂ : ℚ} (h : r₁ ≤ r₂) (a b : ℚ × ℚ) :
    inRadius r₁ a b = true → inRadius r₂ a b = true := by
  simp only [inRadius, decide_eq_true_eq]
  rintro ⟨h0, hd⟩
  exact ⟨h0.trans h, hd.trans (mul_le_mul h h h0 (h0.trans h))⟩

/-- C1: whenever the merge of a per-slide input succeeds, every merged row
belongs to its own radius-query neighbour set (distance 0), and therefore,
if all mark entries are nonnegative, every component of its aggregated
NeighbourhoodVector is at least the corresponding component of its own
MarkVector. -/
theorem C1_self_in_neighbourhood (r : ℚ) (pts : List Point) (mks : List Mark)
    (df : List Row) (hr : 0 ≤ r) (hm : merge pts mks = some df)
    (hnn : ∀ m ∈ mks, ∀ i : Nat, 0 ≤ m.vec.getD i 0) :
    ∀ row ∈ df,
      row ∈ df.filter (fun q => inRadius r (coord row) (coord q)) ∧
      ∀ i : Nat, row.vec.getD i 0 ≤ (aggregateRow r df row).getD i 0 := by
  intro row hrow
  have hself : row ∈ df.filter (fun q => inRadius r (coord row) (coord q)) :=
    List.mem_filter.mpr ⟨hrow, inRadius_self hr (coord row)⟩
  refine ⟨hself, fun i => ?_⟩
  have hagg : (aggregateRow r df row).getD i 0 =
      ((df.filter (fun q => inRadius r (coord row) (coord q))).map
        (fun q => q.vec.getD i 0)).sum := by
    unfold aggregateRow
    rw [vecSum_getD, List.map_map]
    rfl
  rw [hagg]
  have hmem : row.vec.getD i 0 ∈
      (df.filter (fun q => inRadius r (coord row) (coord q))).map
        (fun q => q.vec.getD i 0) :=
    List.mem_map_of_mem _ hself
  refine List.single_le_sum (fun x hx => ?_) _ hmem
  obtain ⟨q, hq, rfl⟩ := List.mem_map.mp hx
  obtain ⟨m, hm', hv⟩ := merge_row_vec hm (List.mem_of_mem_filter hq)
  rw [hv]
  exact hnn m hm' i

/-- C1 witness: a concrete one-slide input with two adjacent cells. -/
theorem C1_self_in_neighbourhood_witness :
    (0 : ℚ) ≤ 1 ∧
    merge [⟨0, 0, 0, 0⟩, ⟨0, 1, 1, 0⟩]
        [⟨0, 0, [1, 0]⟩, ⟨0, 1, [0, 1]⟩] =
      some [⟨0, 0, 0, 0, [1, 0]⟩, ⟨0, 1, 1, 0, [0, 1]⟩] ∧
    ((⟨0, 0, 0, 0, [1, 0]⟩ : Row) ∈
        [⟨0, 0, 0, 0, [1, 0]⟩, ⟨0, 1, 1, 0, [0, 1]⟩].filter
          (fun q => inRadius 1 (coord ⟨0, 0, 0, 0, [1, 0]⟩) (coord q)) ∧
      ∀ i : Nat, (([1, 0] : List ℚ)).getD i 0 ≤
        (aggregateRow 1 [⟨0, 0, 0, 0, [1, 0]⟩, ⟨0, 1, 1, 0, [0, 1]⟩]
          ⟨0, 0, 0, 0, [1, 0]⟩).getD i 0) := by
  refine ⟨by norm_num, by decide, ?_⟩
  exact C1_self_in_neighbourhood 1 [⟨0, 0, 0, 0⟩, ⟨0, 1, 1, 0⟩]
    [⟨0, 0, [1, 0]⟩, ⟨0, 1, [0, 1]⟩]
    [⟨0, 0, 0, 0, [1, 0]⟩, ⟨0, 1, 1, 0, [0, 1]⟩] (by norm_num) (by decide)
    (by
      intro m hm i
      fin_cases hm <;>
        exact getD_nonneg (by intro x hx; fin_cases hx <;> norm_num) i)
    ⟨0, 0, 0, 0, [1, 0]⟩ (by decide)

/-- C7 (amended): for nonnegative mark entries, enlarging the radius never
decreases any component of any aggregated NeighbourhoodVector. -/
theorem C7_radius_monotone (r₁ r₂ : ℚ) (pts : List Point) (mks : List Mark)
    (df : List Row) (hr : r₁ ≤ r₂) (hm : merge pts mks = some df)
    (hnn : ∀ m ∈ mks, ∀ i : Nat, 0 ≤ m.vec.getD i 0) :
    ∀ row ∈ df, ∀ i : Nat,
      (aggregateRow r₁ df row).getD i 0 ≤ (aggregateRow r₂ df row).getD i 0 := by
  intro row _ i
  have hagg : ∀ r : ℚ, (aggregateRow r df row).getD i 0 =
      ((df.filter (fun q => inRadius r (coord row) (coord q))).map
        (fun q => q.vec.getD i 0)).sum := by
    intro r
    unfold aggregateRow
    rw [vecSum_getD, List.map_map]
    rfl
  rw [hagg r₁, hagg r₂]
  refine sum_filter_mono _ _ _ df
    (fun q => inRadius_mono hr (coord row) (coord q)) (fun q hq => ?_)
  obtain ⟨m, hm', hv⟩ := merge_row_vec hm hq
  rw [hv]
  exact hnn m hm' i

/-- C7 counterexample: with a negative mark entry (the code accepts any
numeric marks), growing the radius from 0 to 1 makes a neighbour with mark
`-1` enter the sum and strictly decreases component 0, so the claim as
stated (for every per-slide input, without a nonnegativity hypothesis) is
false. -/
theorem C7_counterexample :
    (0 : ℚ) ≤ 1 ∧
    merge [⟨0, 0, 0, 0⟩, ⟨0, 1, 1, 0⟩] [⟨0, 0, [0]⟩, ⟨0, 1, [-1]⟩] =
      some [⟨0, 0, 0, 0, [0]⟩, ⟨0, 1, 1, 0, [-1]⟩] ∧
    ¬ ((aggregateRow 0 [⟨0, 0, 0, 0, [0]⟩, ⟨0, 1, 1, 0, [-1]⟩]
          ⟨0, 0, 0, 0, [0]⟩).getD 0 0 ≤
        (aggregateRow 1 [⟨0, 0, 0, 0, [0]⟩, ⟨0, 1, 1, 0, [-1]⟩]
          ⟨0, 0, 0, 0, [0]⟩).getD 0 0) := by
  refine ⟨by norm_num, by decide, ?_⟩
  have h0 : aggregateRow 0 [⟨0, 0, 0, 0, [0]⟩, ⟨0, 1, 1, 0, [-1]⟩]
      ⟨0, 0, 0, 0, [0]⟩ = [0] := by
    norm_num [aggregateRow, vecSum, addVec, inRadius, sqDist, coord, List.filter]
  have h1 : aggregateRow 1 [⟨0, 0, 0, 0, [0]⟩, ⟨0, 1, 1, 0, [-1]⟩]
      ⟨0, 0, 0, 0, [0]⟩ = [-1] := by
    norm_num [aggregateRow, vecSum, addVec, inRadius, sqDist, coord, List.filter]
  rw [h0, h1]
  norm_num [List.getD]

/-- C7 witness: a concrete nonnegative one-slide input. -/
theorem C7_radius_monotone_witness :
    (0 : ℚ) ≤ 1 ∧
    merge [⟨0, 0, 0, 0⟩] [⟨0, 0, [2]⟩] = some [⟨0, 0, 0, 0, [2]⟩] ∧
    (aggregateRow 0 [⟨0, 0, 0, 0, [2]⟩] ⟨0, 0, 0, 0, [2]⟩).getD 0 0 ≤
      (aggregateRow 1 [⟨0, 0, 0, 0, [2]⟩] ⟨0, 0, 0, 0, [2]⟩).getD 0 0 := by
  refine ⟨by norm_num, by decide, ?_⟩
  exact C7_radius_monotone 0 1 [⟨0, 0, 0, 0⟩] [⟨0, 0, [2]⟩]
    [⟨0, 0, 0, 0, [2]⟩] (by norm_num) (by decide)
    (by
      intro m hm i
      fin_cases hm
      exact getD_nonneg (by intro x hx; fin_cases hx; norm_num) i)
    ⟨0, 0, 0, 0, [2]⟩ (by decide) 0

/-- C3 counterexample: one point and an empty marks table.  The join is not
one-to-one (the point has zero matching mark rows), yet `merge` does not
raise: pandas `validate="one_to_one"` only checks key uniqueness on each
side, and the inner join silently drops the unmatched point (0 output rows
for 1 input point). -/
theorem C3_counterexample :
    merge [⟨0, 0, 0, 0⟩] [] = some [] ∧
    mergeRow [] ⟨0, 0, 0, 0⟩ = none ∧
    ([] : List Row).length = 0 ∧ [(⟨0, 0, 0, 0⟩ : Point)].length = 1 := by
  decide

/-- C3 (amended): `merge` raises exactly when the `(slide, cell)` keys are
duplicated in the points table or in the marks table (pandas
`validate="one_to_one"`); a point with zero matching mark rows is silently
dropped by the inner join, not an error; and when keys are unique on both
sides and every point has a matching mark row, the output has exactly one
row per input point, in order, with the same keys. -/
theorem C3_merge_validation (pts : List Point) (mks : List Mark) :
    (merge pts mks = none ↔
      ¬ ((pts.map ptKey).Nodup ∧ (mks.map mkKey).Nodup)) ∧
    ((pts.map ptKey).Nodup → (mks.map mkKey).Nodup →
      (∀ p ∈ pts, (mergeRow mks p).isSome) →
      merge pts mks = some (pts.filterMap (mergeRow mks)) ∧
        (pts.filterMap (mergeRow mks)).map rowKey = pts.map ptKey) := by
  constructor
  · by_cases hc : (pts.map ptKey).Nodup ∧ (mks.map mkKey).Nodup
    · simp [merge, if_pos hc, hc]
    · simp [merge, if_neg hc, hc]
  · intro h₁ h₂ hall
    refine ⟨by simp [merge, if_pos (And.intro h₁ h₂)], ?_⟩
    clear h₁
    induction pts with
    | nil => rfl
    | cons p rest ih =>
      have hsome := hall p (List.mem_cons_self p rest)
      obtain ⟨row, hrow⟩ := Option.isSome_iff_exists.mp hsome
      have hkey : rowKey row = ptKey p := by
        obtain ⟨m, -, -, rfl⟩ := mergeRow_eq_some hrow
        rfl
      rw [List.filterMap_cons, hrow, List.map_cons, List.map_cons, hkey,
        ih (fun q hq => hall q (List.mem_cons_of_mem p hq))]

/-- C3 witness: a concrete exactly-one-to-one input. -/
theorem C3_merge_validation_witness :
    (merge [⟨0, 0, 0, 0⟩] [⟨0, 0, [1]⟩] = none ↔
      ¬ (([(⟨0, 0, 0, 0⟩ : Point)].map ptKey).Nodup ∧
         ([(⟨0, 0, [1]⟩ : Mark)].map mkKey).Nodup)) ∧
    (merge [⟨0, 0, 0, 0⟩] [⟨0, 0, [1]⟩] =
        some ([⟨0, 0, 0, 0⟩].filterMap (mergeRow [⟨0, 0, [1]⟩])) ∧
      (([⟨0, 0, 0, 0⟩].filterMap (mergeRow [⟨0, 0, [1]⟩])).map rowKey =
        [(⟨0, 0, 0, 0⟩ : Point)].map ptKey)) := by
  have h := C3_merge_validation [⟨0, 0, 0, 0⟩] [⟨0, 0, [1]⟩]
  exact ⟨h.1, h.2 (by decide) (by decide) (by decide)⟩

/-! ### Per-slide aggregation (`run_neighbourhood_aggregation`) -/

/-- `points.wsi_uuid.drop_duplicates()`: deduplication keeping the first
occurrence of each slide id, in order of appearance. -/
def dedupFirstAux (seen : List Nat) : List Nat → List Nat
  | [] => []
  | a :: l =>
    if a ∈ seen then dedupFirstAux seen l
    else a :: dedupFirstAux (a :: seen) l

def dedupFirst (l : List Nat) : List Nat := dedupFirstAux [] l

/-- `points.query("wsi_uuid==@wsi_uuid")`. -/
def filterSlidePts (s : Nat) (pts : List Point) : List Point :=
  pts.filter (fun p => p.slide == s)

/-- `marks.query("wsi_uuid==@wsi_uuid")`. -/
def filterSlideMks (s : Nat) (mks : List Mark) : List Mark :=
  mks.filter (fun m => m.slide == s)

/-- The fixed neighbourhood radius used by the run
(`Neighbourhood(0.034)`). -/
def radius : ℚ := 34 / 1000

/-- The loop of `run_neighbourhood_aggregation`: for each slide id, in
order, aggregate the neighbourhoods of that slide only, then concatenate
(`pd.concat(outcome)`).  An exception on any slide aborts the run. -/
def aggSlides (r : ℚ) (pts : List Point) (mks : List Mark) :
    List Nat → Option (List ((Nat × Nat) × List ℚ))
  | [] => some []
  | s :: ss => do
    let block ← neighbourhood r (filterSlidePts s pts) (filterSlideMks s mks)
    let rest ← aggSlides r pts mks ss
    pure (block ++ rest)

/-- `run_neighbourhood_aggregation` (`src/cell_niches.py` lines 77-98). -/
def run_neighbourhood_aggregation (pts : List Point) (mks : List Mark) :
    Option (List ((Nat × Nat) × List ℚ)) :=
  aggSlides radius pts mks (dedupFirst (pts.map (·.slide)))

theorem mem_dedupFirstAux (a : Nat) (seen l : List Nat) :
    a ∈ dedupFirstAux seen l ↔ a ∈ l ∧ a ∉ seen := by
  induction l generalizing seen with
  | nil => simp [dedupFirstAux]
  | cons b l ih =>
    by_cases hb : b ∈ seen
    · rw [dedupFirstAux, if_pos hb, ih]
      constructor
      · rintro ⟨h₁, h₂⟩
        exact ⟨List.mem_cons_of_mem b h₁, h₂⟩
      · rintro ⟨h₁, h₂⟩
        rcases List.mem_cons.mp h₁ with rfl | h₁
        · exact absurd hb h₂
        · exact ⟨h₁, h₂⟩
    · rw [dedupFirstAux, if_neg hb]
      simp only [List.mem_cons, ih]
      constructor
      · rintro (rfl | ⟨h₁, h₂⟩)
        · exact ⟨Or.inl rfl, hb⟩
        · exact ⟨Or.inr h₁, fun hc => h₂ (Or.inr hc)⟩
      · rintro ⟨rfl | h₁, h₂⟩
        · exact Or.inl rfl
        · by_cases hab : a = b
          · exact Or.inl hab
          · exact Or.inr ⟨h₁, fun hc => hc.elim hab h₂⟩

theorem mem_dedupFirst (a : Nat) (l : List Nat) :
    a ∈ dedupFirst l ↔ a ∈ l := by
  rw [dedupFirst, mem_dedupFirstAux]
  simp

theorem nodup_dedupFirstAux (seen l : List Nat) :
    (dedupFirstAux seen l).Nodup := by
  induction l generalizing seen with
  | nil => simp [dedupFirstAux]
  | cons b l ih =>
    by_cases hb : b ∈ seen
    · rw [dedupFirstAux, if_pos hb]
      exact ih seen
    · rw [dedupFirstAux, if_neg hb]
      refine List.Nodup.cons (fun hc => ?_) (ih (b :: seen))
      exact ((mem_dedupFirstAux b (b :: seen) l).mp hc).2
        (List.mem_cons_self b seen)

theorem nodup_dedupFirst (l : List Nat) : (dedupFirst l).Nodup :=
  nodup_dedupFirstAux [] l

/-- Every output row of a per-slide aggregation carries that slide id. -/
theorem neighbourhood_filterSlide_key (r : ℚ) (s : Nat) (pts : List Point)
    (mks : List Mark) (out : List ((Nat × Nat) × List ℚ))
    (h : neighbourhood r (filterSlidePts s pts) mks = some out) :
    ∀ row ∈ out, row.1.1 = s := by
  intro row hrow
  unfold neighbourhood at h
  cases hmg : merge (filterSlidePts s pts) mks with
  | none => rw [hmg] at h; simp at h
  | some df =>
    rw [hmg] at h
    simp only [Option.map_some', Option.some.injEq] at h
    subst h
    obtain ⟨q, hq, rfl⟩ := List.mem_map.mp hrow
    obtain ⟨-, -, rfl⟩ := merge_eq_some hmg
    obtain ⟨p, hp, hpq⟩ := List.mem_filterMap.mp hq
    obtain ⟨m, -, -, rfl⟩ := mergeRow_eq_some hpq
    have hps : p.slide == s :=
      (List.mem_filter.mp (show p ∈ pts.filter (fun p => p.slide == s) from hp)).2
    simpa [rowKey] using hps

theorem aggSlides_keys (r : ℚ) (pts : List Point) (mks : List Mark)
    (ss : List Nat) (out : List ((Nat × Nat) × List ℚ))
    (h : aggSlides r pts mks ss = some out) :
    ∀ row ∈ out, row.1.1 ∈ ss := by
  induction ss generalizing out with
  | nil =>
    simp only [aggSlides, Option.some.injEq] at h
    subst h
    simp
  | cons s ss ih =>
    simp only [aggSlides, Option.bind_eq_bind, Option.bind_eq_some] at h
    obtain ⟨block, hblock, rest, hrest, hout⟩ := h
    simp only [Option.pure_def, Option.some.injEq] at hout
    subst hout
    intro row hrow
    rcases List.mem_append.mp hrow with hb | hr
    · exact List.mem_cons.mpr
        (Or.inl (neighbourhood_filterSlide_key r s pts
          (filterSlideMks s mks) block hblock row hb))
    · exact List.mem_cons.mpr (Or.inr (ih rest hrest row hr))

theorem aggSlides_filter (r : ℚ) (pts : List Point) (mks : List Mark)
    (ss : List Nat) (out : List ((Nat × Nat) × List ℚ))
    (h : aggSlides r pts mks ss = some out) (hnd : ss.Nodup) :
    ∀ s ∈ ss,
      neighbourhood r (filterSlidePts s pts) (filterSlideMks s mks) =
        some (out.filter (fun row => row.1.1 == s)) := by
  induction ss generalizing out with
  | nil => simp
  | cons s' ss ih =>
    simp only [aggSlides, Option.bind_eq_bind, Option.bind_eq_some] at h
    obtain ⟨block, hblock, rest, hrest, hout⟩ := h
    simp only [Option.pure_def, Option.some.injEq] at hout
    subst hout
    intro s hs
    rw [List.filter_append]
    rcases List.mem_cons.mp hs with rfl | hs
    · have hb : block.filter (fun row => row.1.1 == s) = block := by
        refine List.filter_eq_self.mpr (fun row hrow => ?_)
        have := neighbourhood_filterSlide_key r s pts
          (filterSlideMks s mks) block hblock row hrow
        simpa using this
      have hrnil : rest.filter (fun row => row.1.1 == s) = [] := by
        refine List.filter_eq_nil_iff.mpr (fun row hrow => ?_)
        have hmem := aggSlides_keys r pts mks ss rest hrest row hrow
        have hne : row.1.1 ≠ s := fun hc => (List.nodup_cons.mp hnd).1 (hc ▸ hmem)
        simpa using hne
      rw [hb, hrnil, List.append_nil]
      exact hblock
    · have hne : s' ≠ s := by
        rintro rfl
        exact (List.nodup_cons.mp hnd).1 hs
      have hbnil : block.filter (fun row => row.1.1 == s) = [] := by
        refine List.filter_eq_nil_iff.mpr (fun row hrow => ?_)
        have hkey := neighbourhood_filterSlide_key r s' pts
          (filterSlideMks s' mks) block hblock row hrow
        simpa [hkey] using hne
      rw [hbnil, List.nil_append]
      exact ih rest hrest (List.nodup_cons.mp hnd).2 s hs

/-- C4: when `run_neighbourhood_aggregation` succeeds, the slide-`s` rows of
the pooled output are exactly the result of aggregating slide `s` points
against slide `s` marks alone — the NeighbourhoodVector of any point is
determined only by data of its own slide, and the pooled table is the
concatenation of the per-slide results. -/
theorem C4_per_slide_independence (pts : List Point) (mks : List Mark)
    (out : List ((Nat × Nat) × List ℚ))
    (h : run_neighbourhood_aggregation pts mks = some out) :
    ∀ s ∈ pts.map (·.slide),
      neighbourhood radius (filterSlidePts s pts) (filterSlideMks s mks) =
        some (out.filter (fun row => row.1.1 == s)) := by
  intro s hs
  unfold run_neighbourhood_aggregation at h
  exact aggSlides_filter radius pts mks (dedupFirst (pts.map (·.slide))) out h
    (nodup_dedupFirst _) s ((mem_dedupFirst s _).mpr hs)

/-- C4 witness: two slides with one cell each. -/
theorem C4_per_slide_independence_witness :
    run_neighbourhood_aggregation [⟨0, 0, 0, 0⟩, ⟨1, 0, 5, 5⟩]
        [⟨0, 0, [1]⟩, ⟨1, 0, [2]⟩] =
      some [((0, 0), [1]), ((1, 0), [2])] ∧
    (0 : Nat) ∈ [(⟨0, 0, 0, 0⟩ : Point), ⟨1, 0, 5, 5⟩].map (·.slide) ∧
    neighbourhood radius
        (filterSlidePts 0 [⟨0, 0, 0, 0⟩, ⟨1, 0, 5, 5⟩])
        (filterSlideMks 0 [⟨0, 0, [1]⟩, ⟨1, 0, [2]⟩]) =
      some (([((0, 0), [1]), ((1, 0), [2])] :
          List ((Nat × Nat) × List ℚ)).filter (fun row => row.1.1 == 0)) := by
  have hb0 : neighbourhood radius
      (filterSlidePts 0 [⟨0, 0, 0, 0⟩, ⟨1, 0, 5, 5⟩])
      (filterSlideMks 0 [⟨0, 0, [1]⟩, ⟨1, 0, [2]⟩]) =
      some [((0, 0), [1])] := by
    have hfp : filterSlidePts 0 [⟨0, 0, 0, 0⟩, ⟨1, 0, 5, 5⟩] =
        [⟨0, 0, 0, 0⟩] := by decide
    have hfm : filterSlideMks 0 [⟨0, 0, [1]⟩, ⟨1, 0, [2]⟩] =
        [⟨0, 0, [1]⟩] := by decide
    have hmg : merge [⟨0, 0, 0, 0⟩] [⟨0, 0, [1]⟩] =
        some [⟨0, 0, 0, 0, [1]⟩] := by decide
    rw [hfp, hfm, neighbourhood, hmg]
    norm_num [rowKey, aggregateRow, vecSum, addVec, inRadius, sqDist, coord,
      radius, List.filter]
  have hb1 : neighbourhood radius
      (filterSlidePts 1 [⟨0, 0, 0, 0⟩, ⟨1, 0, 5, 5⟩])
      (filterSlideMks 1 [⟨0, 0, [1]⟩, ⟨1, 0, [2]⟩]) =
      some [((1, 0), [2])] := by
    have hfp : filterSlidePts 1 [⟨0, 0, 0, 0⟩, ⟨1, 0, 5, 5⟩] =
        [⟨1, 0, 5, 5⟩] := by decide
    have hfm : filterSlideMks 1 [⟨0, 0, [1]⟩, ⟨1, 0, [2]⟩] =
        [⟨1, 0, [2]⟩] := by decide
    have hmg : merge [⟨1, 0, 5, 5⟩] [⟨1, 0, [2]⟩] =
        some [⟨1, 0, 5, 5, [2]⟩] := by decide
    rw [hfp, hfm, neighbourhood, hmg]
    norm_num [rowKey, aggregateRow, vecSum, addVec, inRadius, sqDist, coord,
      radius, List.filter]
  have hrun : run_neighbourhood_aggregation [⟨0, 0, 0, 0⟩, ⟨1, 0, 5, 5⟩]
      [⟨0, 0, [1]⟩, ⟨1, 0, [2]⟩] = some [((0, 0), [1]), ((1, 0), [2])] := by
    have hd : dedupFirst ([(⟨0, 0, 0, 0⟩ : Point), ⟨1, 0, 5, 5⟩].map
        (·.slide)) = [0, 1] := by decide
    rw [run_neighbourhood_aggregation, hd]
    simp only [aggSlides, hb0, hb1, Option.bind_eq_bind, Option.some_bind,
      Option.pure_def, Option.some.injEq]
    rfl
  exact ⟨hrun, by decide,
    C4_per_slide_independence [⟨0, 0, 0, 0⟩, ⟨1, 0, 5, 5⟩]
      [⟨0, 0, [1]⟩, ⟨1, 0, [2]⟩] [((0, 0), [1]), ((1, 0), [2])] hrun 0
      (by decide)⟩

/-! ### Order invariance of the aggregation (C8) -/

/-- `find?` does not depend on list order when at most one element can
satisfy the predicate. -/
theorem find?_perm_of_unique {α : Type} (p : α → Bool) {l₁ l₂ : List α}
    (h : l₁.Perm l₂)
    (uniq : ∀ a ∈ l₁, ∀ b ∈ l₁, p a = true → p b = true → a = b) :
    l₁.find? p = l₂.find? p := by
  cases h₁ : l₁.find? p with
  | none =>
    have hall := List.find?_eq_none.mp h₁
    exact (List.find?_eq_none.mpr (fun x hx => hall x (h.mem_iff.mpr hx))).symm
  | some a =>
    have hpa : p a = true := List.find?_some h₁
    have hmem : a ∈ l₁ := List.mem_of_find?_eq_some h₁
    cases h₂ : l₂.find? p with
    | none =>
      exact absurd hpa (List.find?_eq_none.mp h₂ a (h.mem_iff.mp hmem))
    | some b =>
      have hpb : p b = true := List.find?_some h₂
      have hmemb : b ∈ l₁ := h.mem_iff.mpr (List.mem_of_find?_eq_some h₂)
      rw [uniq a hmem b hmemb hpa hpb]

/-- Key uniqueness transfers from the marks table to `find?` satisfiers. -/
theorem mark_key_unique {mks : List Mark} (hnd : (mks.map mkKey).Nodup)
    (k : Nat × Nat) :
    ∀ a ∈ mks, ∀ b ∈ mks, (mkKey a == k) = true → (mkKey b == k) = true →
      a = b := by
  intro a ha b hb hka hkb
  have hka' : mkKey a = k := by simpa using hka
  have hkb' : mkKey b = k := by simpa using hkb
  exact List.inj_on_of_nodup_map hnd ha hb (hka'.trans hkb'.symm)

/-- Under a permutation of a marks table with unique keys, `mergeRow` is
unchanged. -/
theorem mergeRow_perm {mks₁ mks₂ : List Mark} (h : mks₁.Perm mks₂)
    (hnd : (mks₁.map mkKey).Nodup) (p : Point) :
    mergeRow mks₁ p = mergeRow mks₂ p := by
  unfold mergeRow
  rw [find?_perm_of_unique _ h (mark_key_unique hnd (ptKey p))]

/-- Under permutations of both inputs with unique mark keys, the merged
dataframes are permutations of each other. -/
theorem merge_perm {pts₁ pts₂ : List Point} {mks₁ mks₂ : List Mark}
    {df₁ df₂ : List Row} (hp : pts₁.Perm pts₂) (hm : mks₁.Perm mks₂)
    (h₁ : merge pts₁ mks₁ = some df₁) (h₂ : merge pts₂ mks₂ = some df₂) :
    df₁.Perm df₂ := by
  obtain ⟨-, hnd₁, rfl⟩ := merge_eq_some h₁
  obtain ⟨-, -, rfl⟩ := merge_eq_some h₂
  have hfm : pts₂.filterMap (mergeRow mks₂) =
      pts₂.filterMap (mergeRow mks₁) :=
    List.filterMap_congr (fun p _ => (mergeRow_perm hm hnd₁ p).symm)
  rw [hfm]
  exact hp.filterMap (mergeRow mks₁)

/-- The keys of the inner join form a sublist of the point keys. -/
theorem filterMap_mergeRow_keys_sublist (mks : List Mark) (pts : List Point) :
    ((pts.filterMap (mergeRow mks)).map rowKey).Sublist (pts.map ptKey) := by
  induction pts with
  | nil => simp
  | cons p rest ih =>
    rw [List.filterMap_cons, List.map_cons]
    cases hmr : mergeRow mks p with
    | none => exact ih.cons (ptKey p)
    | some row =>
      have hkey : rowKey row = ptKey p := by
        obtain ⟨m, -, -, rfl⟩ := mergeRow_eq_some hmr
        rfl
      rw [List.map_cons, hkey]
      exact ih.cons₂ (ptKey p)

/-- The merged dataframe inherits key uniqueness from the points table. -/
theorem merge_keys_nodup {pts : List Point} {mks : List Mark} {df : List Row}
    (h : merge pts mks = some df) : (df.map rowKey).Nodup := by
  obtain ⟨hnd, -, rfl⟩ := merge_eq_some h
  exact List.Nodup.sublist (filterMap_mergeRow_keys_sublist mks pts) hnd

/-- The aggregated vector of a fixed row is invariant under permutation of
the merged dataframe. -/
theorem aggregateRow_perm {df₁ df₂ : List Row} (h : df₁.Perm df₂) (r : ℚ)
    (row : Row) : aggregateRow r df₁ row = aggregateRow r df₂ row := by
  unfold aggregateRow
  exact vecSum_perm
    ((h.filter (fun q => inRadius r (coord row) (coord q))).map (·.vec))

/-- C8: permuting the rows of the points table and of the marks table does
not change the aggregated result of any cell, when results are looked up by
the `(slide, cell)` identity. -/
theorem C8_order_invariance (r : ℚ) {pts₁ pts₂ : List Point}
    {mks₁ mks₂ : List Mark} {out₁ out₂ : List ((Nat × Nat) × List ℚ)}
    (hp : pts₁.Perm pts₂) (hm : mks₁.Perm mks₂)
    (h₁ : neighbourhood r pts₁ mks₁ = some out₁)
    (h₂ : neighbourhood r pts₂ mks₂ = some out₂) :
    ∀ k : Nat × Nat,
      out₁.find? (fun row => row.1 == k) = out₂.find? (fun row => row.1 == k) := by
  intro k
  unfold neighbourhood at h₁ h₂
  cases hmg₁ : merge pts₁ mks₁ with
  | none => rw [hmg₁] at h₁; simp at h₁
  | some df₁ =>
    cases hmg₂ : merge pts₂ mks₂ with
    | none => rw [hmg₂] at h₂; simp at h₂
    | some df₂ =>
      rw [hmg₁] at h₁
      rw [hmg₂] at h₂
      simp only [Option.map_some', Option.some.injEq] at h₁ h₂
      subst h₁
      subst h₂
      have hdf : df₁.Perm df₂ := merge_perm hp hm hmg₁ hmg₂
      have hmap₂ : df₂.map (fun row => (rowKey row, aggregateRow r df₂ row)) =
          df₂.map (fun row => (rowKey row, aggregateRow r df₁ row)) :=
        List.map_congr_left
          (fun row _ => by rw [aggregateRow_perm hdf.symm r row])
      rw [hmap₂]
      refine find?_perm_of_unique _
        (hdf.map (fun row => (rowKey row, aggregateRow r df₁ row))) ?_
      intro a ha b hb hka hkb
      have hnd : (df₁.map rowKey).Nodup := merge_keys_nodup hmg₁
      obtain ⟨ra, hra, rfl⟩ := List.mem_map.mp ha
      obtain ⟨rb, hrb, rfl⟩ := List.mem_map.mp hb
      have hka' : rowKey ra = k := by simpa using hka
      have hkb' : rowKey rb = k := by simpa using hkb
      have hinj : ∀ x ∈ df₁, ∀ y ∈ df₁, rowKey x = rowKey y → x = y :=
        List.inj_on_of_nodup_map hnd
      rw [hinj ra hra rb hrb (hka'.trans hkb'.symm)]

/-- C8 witness: swapping the two rows of a one-slide input. -/
theorem C8_order_invariance_witness :
    ([(⟨0, 0, 0, 0⟩ : Point), ⟨0, 1, 1, 0⟩].Perm [⟨0, 1, 1, 0⟩, ⟨0, 0, 0, 0⟩]) ∧
    ([(⟨0, 0, [1]⟩ : Mark), ⟨0, 1, [2]⟩].Perm [⟨0, 1, [2]⟩, ⟨0, 0, [1]⟩]) ∧
    (neighbourhood 2 [⟨0, 0, 0, 0⟩, ⟨0, 1, 1, 0⟩] [⟨0, 0, [1]⟩, ⟨0, 1, [2]⟩] =
      some [((0, 0), [3]), ((0, 1), [3])]) ∧
    (neighbourhood 2 [⟨0, 1, 1, 0⟩, ⟨0, 0, 0, 0⟩] [⟨0, 1, [2]⟩, ⟨0, 0, [1]⟩] =
      some [((0, 1), [3]), ((0, 0), [3])]) ∧
    ([((0, 0), [3]), ((0, 1), [3])] :
        List ((Nat × Nat) × List ℚ)).find? (fun row => row.1 == (0, 1)) =
      ([((0, 1), [3]), ((0, 0), [3])] :
        List ((Nat × Nat) × List ℚ)).find? (fun row => row.1 == (0, 1)) := by
  have hperm₁ : [(⟨0, 0, 0, 0⟩ : Point), ⟨0, 1, 1, 0⟩].Perm
      [⟨0, 1, 1, 0⟩, ⟨0, 0, 0, 0⟩] := List.Perm.swap _ _ _
  have hperm₂ : [(⟨0, 0, [1]⟩ : Mark), ⟨0, 1, [2]⟩].Perm
      [⟨0, 1, [2]⟩, ⟨0, 0, [1]⟩] := List.Perm.swap _ _ _
  have hn₁ : neighbourhood 2 [⟨0, 0, 0, 0⟩, ⟨0, 1, 1, 0⟩]
      [⟨0, 0, [1]⟩, ⟨0, 1, [2]⟩] = some [((0, 0), [3]), ((0, 1), [3])] := by
    have hmg : merge [⟨0, 0, 0, 0⟩, ⟨0, 1, 1, 0⟩] [⟨0, 0, [1]⟩, ⟨0, 1, [2]⟩] =
        some [⟨0, 0, 0, 0, [1]⟩, ⟨0, 1, 1, 0, [2]⟩] := by decide
    rw [neighbourhood, hmg]
    norm_num [rowKey, aggregateRow, vecSum, addVec, inRadius, sqDist, coord,
      List.filter]
  have hn₂ : neighbourhood 2 [⟨0, 1, 1, 0⟩, ⟨0, 0, 0, 0⟩]
      [⟨0, 1, [2]⟩, ⟨0, 0, [1]⟩] = some [((0, 1), [3]), ((0, 0), [3])] := by
    have hmg : merge [⟨0, 1, 1, 0⟩, ⟨0, 0, 0, 0⟩] [⟨0, 1, [2]⟩, ⟨0, 0, [1]⟩] =
        some [⟨0, 1, 1, 0, [2]⟩, ⟨0, 0, 0, 0, [1]⟩] := by decide
    rw [neighbourhood, hmg]
    norm_num [rowKey, aggregateRow, vecSum, addVec, inRadius, sqDist, coord,
      List.filter]
  exact ⟨hperm₁, hperm₂, hn₁, hn₂,
    C8_order_invariance 2 hperm₁ hperm₂ hn₁ hn₂ (0, 1)⟩

/-! ### Normalization (`gethist`, C2) -/

theorem zip_map_self {α β : Type} (f : α → β) (l : List α) :
    l.zip (l.map f) = l.map (fun a => (a, f a)) := by
  induction l with
  | nil => rfl
  | cons a l ih => simp [ih]

theorem sum_map_div (l : List ℝ) (c : ℝ) :
    (l.map (fun v => v / c)).sum = l.sum / c := by
  induction l with
  | nil => simp
  | cons x l ih => simp [ih, add_div]

/-- `np.log1p` applied to one entry. -/
noncomputable def log1p (x : ℝ) : ℝ := Real.log (1 + x)

/-- `vals / (vals.sum(-1, keepdims=True) + 1e-6)` applied to one row. -/
noncomputable def normalizeRow (vals : List ℝ) : List ℝ :=
  vals.map (fun v => v / (vals.sum + 1e-6))

/-- `gethist` (`src/cell_niches.py` lines 101-115): `df.fillna(0)` (missing
entries become 0), `np.log1p` elementwise, then each row divided by its row
sum plus `1e-6`. -/
noncomputable def gethist (rows : List (List (Option ℝ))) : List (List ℝ) :=
  rows.map (fun row => normalizeRow ((row.map (fun o => o.getD 0)).map log1p))

theorem log1p_nonneg {x : ℝ} (hx : 0 ≤ x) : 0 ≤ log1p x :=
  Real.log_nonneg (by linarith)

/-- C2: for nonnegative inputs (missing entries read as 0), each output row
of `gethist` is obtained with a strictly positive denominator (no NaN or
undefined value), its sum lies in `[0, 1]` (hence in `[0, 1 + δ]` for every
`δ ≥ 0`), and an all-zero input row produces an all-zero output row. -/
theorem C2_gethist_row_sums (rows : List (List (Option ℝ)))
    (hnn : ∀ row ∈ rows, ∀ o ∈ row, 0 ≤ o.getD 0) :
    ∀ p ∈ rows.zip (gethist rows),
      p.2 = normalizeRow ((p.1.map (fun o => o.getD 0)).map log1p) ∧
      0 < ((p.1.map (fun o => o.getD 0)).map log1p).sum + 1e-6 ∧
      (0 ≤ p.2.sum ∧ p.2.sum ≤ 1) ∧
      ((∀ o ∈ p.1, o.getD 0 = 0) → ∀ v ∈ p.2, v = 0) := by
  intro p hp
  rw [gethist, zip_map_self] at hp
  obtain ⟨row, hrow, rfl⟩ := List.mem_map.mp hp
  have hvnn : ∀ v ∈ (row.map (fun o => o.getD 0)).map log1p, 0 ≤ v := by
    intro v hv
    obtain ⟨w, hw, rfl⟩ := List.mem_map.mp hv
    obtain ⟨o, ho, rfl⟩ := List.mem_map.mp hw
    exact log1p_nonneg (hnn row hrow o ho)
  have hsum : 0 ≤ ((row.map (fun o => o.getD 0)).map log1p).sum :=
    List.sum_nonneg hvnn
  have heps : (0 : ℝ) < 1e-6 := by norm_num
  have hden : 0 < ((row.map (fun o => o.getD 0)).map log1p).sum + 1e-6 := by
    linarith
  refine ⟨rfl, hden, ⟨?_, ?_⟩, ?_⟩
  · rw [normalizeRow, sum_map_div]
    exact div_nonneg hsum hden.le
  · rw [normalizeRow, sum_map_div]
    rw [div_le_one hden]
    linarith
  · intro hzero v hv
    obtain ⟨w, hw, rfl⟩ := List.mem_map.mp hv
    obtain ⟨u, hu, rfl⟩ := List.mem_map.mp hw
    obtain ⟨o, ho, rfl⟩ := List.mem_map.mp hu
    have : log1p (o.getD 0) = 0 := by
      rw [hzero o ho, log1p, add_zero, Real.log_one]
    rw [this, zero_div]

/-- C2 witness: one row with one observed count and one missing entry. -/
theorem C2_gethist_row_sums_witness :
    (∀ row ∈ [[some (1 : ℝ), none]], ∀ o ∈ row, 0 ≤ o.getD 0) ∧
    (normalizeRow ((([some (1 : ℝ), none].map (fun o => o.getD 0)).map
        log1p)) =
      normalizeRow ((([some (1 : ℝ), none].map (fun o => o.getD 0)).map
        log1p)) ∧
    0 < ((([some (1 : ℝ), none].map (fun o => o.getD 0)).map log1p)).sum +
        1e-6 ∧
    (0 ≤ (normalizeRow ((([some (1 : ℝ), none].map (fun o => o.getD 0)).map
          log1p))).sum ∧
      (normalizeRow ((([some (1 : ℝ), none].map (fun o => o.getD 0)).map
          log1p))).sum ≤ 1) ∧
    ((∀ o ∈ [some (1 : ℝ), none], o.getD 0 = 0) →
      ∀ v ∈ normalizeRow ((([some (1 : ℝ), none].map (fun o => o.getD 0)).map
          log1p)), v = 0)) := by
  have hyp : ∀ row ∈ [[some (1 : ℝ), none]], ∀ o ∈ row, 0 ≤ o.getD 0 := by
    intro row hrow o ho
    fin_cases hrow
    fin_cases ho <;> norm_num
  have hmem : (([some (1 : ℝ), none],
      normalizeRow ((([some (1 : ℝ), none].map (fun o => o.getD 0)).map
        log1p))) :
      List (Option ℝ) × List ℝ) ∈
      [[some (1 : ℝ), none]].zip (gethist [[some (1 : ℝ), none]]) := by
    rw [gethist, zip_map_self]
    exact List.mem_map_of_mem _ (List.mem_cons_self _ _)
  exact ⟨hyp, C2_gethist_row_sums [[some (1 : ℝ), none]] hyp _ hmem⟩

/-! ### Spot niche loading (`run_clustering`, C5) -/

/-- `n_clusters=10` passed to `MiniBatchKMeans` (`src/cell_niches.py`
line 147). -/
def n_clusters : Nat := 10

/-- Sorted order, as produced for pandas `groupby` keys and `unstack`
columns. -/
def sortNat (l : List Nat) : List Nat := l.insertionSort (· ≤ ·)

/-- The column index of
`cluster_ids.to_frame("niche_id").groupby("wsi_uuid").niche_id.value_counts().unstack()`:
the distinct niche ids that occur anywhere in the assignments (an
assignment is a `(wsi_uuid, niche_id)` pair), in sorted order.  Niche ids
that occur nowhere produce no column. -/
def nicheCols (as : List (Nat × Nat)) : List Nat :=
  sortNat (dedupFirst (as.map Prod.snd))

/-- The row index: the distinct slide ids, in sorted order. -/
def slideKeys (as : List (Nat × Nat)) : List Nat :=
  sortNat (dedupFirst (as.map Prod.fst))

/-- The niche ids of the cells of slide `s`, i.e. the `niche_id` series of
one `groupby("wsi_uuid")` group. -/
def slideNiches (as : List (Nat × Nat)) (s : Nat) : List Nat :=
  (as.filter (fun p => p.1 == s)).map Prod.snd

/-- The `SpotNicheLoading` table written by `run_clustering`
(`src/cell_niches.py` lines 193-203): for each slide the `value_counts`
per niche id, unstacked over `nicheCols` and `fillna(0)`. -/
def spot_niche_loading (as : List (Nat × Nat)) : List (Nat × List Nat) :=
  (slideKeys as).map
    (fun s => (s, (nicheCols as).map (fun c => (slideNiches as s).count c)))

theorem mem_sortNat (a : Nat) (l : List Nat) : a ∈ sortNat l ↔ a ∈ l :=
  (List.perm_insertionSort (· ≤ ·) l).mem_iff

theorem nodup_sortNat {l : List Nat} (h : l.Nodup) : (sortNat l).Nodup :=
  (List.perm_insertionSort (· ≤ ·) l).nodup_iff.mpr h

theorem mem_nicheCols (c : Nat) (as : List (Nat × Nat)) :
    c ∈ nicheCols as ↔ c ∈ as.map Prod.snd := by
  rw [nicheCols, mem_sortNat, mem_dedupFirst]

theorem sum_map_add_nat {α : Type} (f g : α → Nat) (l : List α) :
    (l.map (fun a => f a + g a)).sum = (l.map f).sum + (l.map g).sum := by
  induction l with
  | nil => simp
  | cons a l ih => simp [ih]; omega

theorem sum_map_ite_count (x : Nat) (cols : List Nat) :
    (cols.map (fun c => if x == c then 1 else 0)).sum = cols.count x := by
  induction cols with
  | nil => simp
  | cons c cols ih =>
    rw [List.map_cons, List.sum_cons, ih, List.count_cons]
    by_cases h : x = c
    · subst h
      simp [Nat.add_comm]
    · simp [h, Ne.symm h]

/-- Summing per-column counts over a duplicate-free column list that covers
every element recovers the length. -/
theorem count_partition (l cols : List Nat) (hnd : cols.Nodup)
    (hmem : ∀ x ∈ l, x ∈ cols) :
    (cols.map (fun c => l.count c)).sum = l.length := by
  induction l with
  | nil => simp
  | cons x l ih =>
    have hx : x ∈ cols := hmem x (List.mem_cons_self x l)
    have h₁ : cols.map (fun c => (x :: l).count c) =
        cols.map (fun c => l.count c + if x == c then 1 else 0) :=
      List.map_congr_left (fun c _ => by rw [List.count_cons])
    rw [h₁, sum_map_add_nat, sum_map_ite_count,
      List.count_eq_one_of_mem hnd hx,
      ih (fun y hy => hmem y (List.mem_cons_of_mem x hy))]
    simp

/-- C5 (amended): for every slide `s` that occurs in the assignments, the
table has the row of `s`, whose sum equals the number of clustered cells of
slide `s`; and a column exists for every niche id that occurs somewhere in
the assignments (the count cell is 0 when the niche is absent from that
slide).  Niche ids in `{0..k-1}` that occur nowhere in the whole cohort are
omitted from the columns, contrary to the claim as stated. -/
theorem C5_spot_niche_loading (as : List (Nat × Nat)) (s : Nat)
    (hs : s ∈ as.map Prod.fst) :
    (s, (nicheCols as).map (fun c => (slideNiches as s).count c)) ∈
        spot_niche_loading as ∧
    ((nicheCols as).map (fun c => (slideNiches as s).count c)).sum =
        (slideNiches as s).length ∧
    ∀ c ∈ as.map Prod.snd, c ∈ nicheCols as := by
  refine ⟨?_, ?_, fun c hc => (mem_nicheCols c as).mpr hc⟩
  · have hks : s ∈ slideKeys as := by
      rw [slideKeys, mem_sortNat, mem_dedupFirst]
      exact hs
    exact List.mem_map_of_mem _ hks
  · refine count_partition _ _ ?_ ?_
    · exact nodup_sortNat (nodup_dedupFirst _)
    · intro x hx
      rw [mem_nicheCols]
      obtain ⟨q, hq, rfl⟩ := List.mem_map.mp hx
      exact List.mem_map_of_mem _ (List.mem_of_mem_filter hq)

/-- C5 counterexample: a cohort whose single cell is assigned to niche 0.
With `n_clusters = 10`, the claim as stated requires a cell for
`(slide 0, niche 3)`, but the unstacked table has no column for niche 3 at
all. -/
theorem C5_counterexample :
    spot_niche_loading [(0, 0)] = [(0, [1])] ∧
    3 < n_clusters ∧ 3 ∉ nicheCols [(0, 0)] := by decide

/-- C5 witness: two slides, two niches. -/
theorem C5_spot_niche_loading_witness :
    ((0 : Nat) ∈ ([(0, 0), (0, 1), (1, 1)] :
        List (Nat × Nat)).map Prod.fst) ∧
    ((0, (nicheCols [(0, 0), (0, 1), (1, 1)]).map
        (fun c => (slideNiches [(0, 0), (0, 1), (1, 1)] 0).count c)) ∈
      spot_niche_loading [(0, 0), (0, 1), (1, 1)] ∧
    ((nicheCols [(0, 0), (0, 1), (1, 1)]).map
        (fun c => (slideNiches [(0, 0), (0, 1), (1, 1)] 0).count c)).sum =
      (slideNiches [(0, 0), (0, 1), (1, 1)] 0).length ∧
    ∀ c ∈ ([(0, 0), (0, 1), (1, 1)] : List (Nat × Nat)).map Prod.snd,
      c ∈ nicheCols [(0, 0), (0, 1), (1, 1)]) :=
  ⟨by decide, C5_spot_niche_loading [(0, 0), (0, 1), (1, 1)] 0 (by decide)⟩

/-! ### Streaming clusterer (C6)

`cluster` (`src/cell_niches.py` lines 132-158) delegates the clustering to
`sklearn.cluster.MiniBatchKMeans(n_clusters=10, random_state=0,
batch_size=8000, max_no_improvement=200)`, which is not part of this
repository.  The clusterer below is modelled from the spec. -/

/-- Modelled from the spec: the pseudo-random number stream behind the
seeded batch sampling of the StreamingClusterer (spec section 4.4,
`random_seed` configuration).  A linear congruential generator stands in
for the library generator; any deterministic generator realises the
documented seeding policy. -/
def lcgNext (s : Nat) : Nat := (s * 1664525 + 1013904223) % 4294967296

/-- Modelled from the spec: drawing one row index from `n` rows. -/
def drawIdx (s n : Nat) : Nat × Nat :=
  let s2 := lcgNext s
  (s2 % n, s2)

/-- Modelled from the spec: drawing a batch of `b` row indices. -/
def drawBatch : Nat → Nat → Nat → List Nat × Nat
  | 0, _, s => ([], s)
  | b + 1, n, s =>
    let p := drawIdx s n
    let rest := drawBatch b n p.2
    (p.1 :: rest.1, rest.2)

/-- Squared Euclidean distance between two feature vectors. -/
def sqDistV (a b : List ℚ) : ℚ :=
  ((addVec a (b.map (fun v => -v))).map (fun d => d * d)).sum

def nearestAux (x : List ℚ) : List (List ℚ) → Nat → Nat → ℚ → Nat
  | [], _, best, _ => best
  | c :: cs, i, best, bestd =>
    let d := sqDistV x c
    if d < bestd then nearestAux x cs (i + 1) i d
    else nearestAux x cs (i + 1) best bestd

/-- Modelled from the spec: the nearest-centroid assignment (lowest index
wins ties). -/
def nearest (cents : List (List ℚ)) (x : List ℚ) : Nat :=
  match cents with
  | [] => 0
  | c :: cs => nearestAux x cs 1 0 (sqDistV x c)

def scaleVec (q : ℚ) (v : List ℚ) : List ℚ := v.map (fun a => q * a)

/-- Modelled from the spec: one partial-fit update — assign the sample to
its nearest centroid, bump the count `v` of that centroid, and move the
centroid towards the sample by `1 / v` (a running weighted average touching
only that centroid). -/
def mbStep (x : List ℚ) (st : List (List ℚ) × List Nat) :
    List (List ℚ) × List Nat :=
  let j := nearest st.1 x
  let v := st.2.getD j 0 + 1
  let c := st.1.getD j []
  let cNew := addVec c (scaleVec (1 / (v : ℚ)) (addVec x (scaleVec (-1) c)))
  (st.1.set j cNew, st.2.set j v)

/-- Modelled from the spec: the inertia of a batch under given centroids
(the rolling improvement metric of the early-stopping rule). -/
def batchInertia (cents : List (List ℚ)) (xs : List (List ℚ)) : ℚ :=
  (xs.map (fun x => sqDistV x (cents.getD (nearest cents x) []))).sum

/-- Modelled from the spec: deterministic seeding — `k` sampled rows become
the initial centroids. -/
def initCentroids (k n seed : Nat) (data : List (List ℚ)) :
    List (List ℚ) × Nat :=
  let p := drawBatch k n seed
  (p.1.map (fun i => data.getD i []), p.2)

/-- Modelled from the spec: the bounded mini-batch loop — sample a batch,
apply the partial-fit updates, track the best inertia seen, and stop after
`maxNoImp` consecutive batches without improvement (or when the fuel bound
on total batches runs out). -/
def mbLoop (data : List (List ℚ)) (n batchSize maxNoImp : Nat) :
    Nat → List (List ℚ) × List Nat → Nat → Option ℚ → Nat → List (List ℚ)
  | 0, st, _, _, _ => st.1
  | fuel + 1, st, s, best, noImp =>
    if maxNoImp ≤ noImp then st.1
    else
      let p := drawBatch batchSize n s
      let xs := p.1.map (fun i => data.getD i [])
      let st2 := xs.foldl (fun acc x => mbStep x acc) st
      let inertia := batchInertia st2.1 xs
      match best with
      | none => mbLoop data n batchSize maxNoImp fuel st2 p.2 (some inertia) 0
      | some b =>
        if inertia < b then
          mbLoop data n batchSize maxNoImp fuel st2 p.2 (some inertia) 0
        else
          mbLoop data n batchSize maxNoImp fuel st2 p.2 (some b) (noImp + 1)

/-- Modelled from the spec: the full streaming clusterer
(`MiniBatchKMeans(...).fit_predict` plus `cluster_centers_`) — seeded
initialisation, the early-stopped mini-batch loop, then a final assignment
pass of every row to its nearest final centroid.  Returns the per-row
cluster ids and the centroid (prototype) matrix. -/
def miniBatchKMeans (seed k batchSize maxNoImp : Nat)
    (data : List (List ℚ)) : List Nat × List (List ℚ) :=
  let n := data.length
  if n = 0 then ([], [])
  else
    let ini := initCentroids k n seed data
    let cents := mbLoop data n batchSize maxNoImp
      (100 * (n / batchSize + 1)) (ini.1, List.replicate k 0) ini.2 none 0
    (data.map (fun x => nearest cents x), cents)

/-- C6: with the seed, batch size and row order of `cluster`
(`random_state=0`, `batch_size=8000`, `n_clusters=10`,
`max_no_improvement=200`), two runs of the clustering step on the same
histogram matrix produce identical NicheAssignment vectors and identical
NichePrototype matrices. -/
theorem C6_clustering_determinism (seed batchSize : Nat)
    (hists₁ hists₂ : List (List ℚ)) (h : hists₁ = hists₂) :
    miniBatchKMeans seed 10 batchSize 200 hists₁ =
      miniBatchKMeans seed 10 batchSize 200 hists₂ := by
  rw [h]

/-- C6 witness: the concrete seed 0 and batch size 8000 of the source. -/
theorem C6_clustering_determinism_witness :
    ([[(1 : ℚ)], [2]] = [[(1 : ℚ)], [2]]) ∧
    miniBatchKMeans 0 10 8000 200 [[(1 : ℚ)], [2]] =
      miniBatchKMeans 0 10 8000 200 [[(1 : ℚ)], [2]] :=
  ⟨rfl, C6_clustering_determinism 0 8000 [[(1 : ℚ)], [2]] [[(1 : ℚ)], [2]] rfl⟩

/-! ### Load-time validation (`get_geometries`, C9) -/

/-- A floating-point coordinate value as stored in the points parquet:
either a finite number or one of the non-finite IEEE values. -/
inductive FVal where
  | fin : ℚ → FVal
  | nan : FVal
  | posInf : FVal
  | negInf : FVal
deriving DecidableEq

def FVal.isFinite : FVal → Bool
  | fin _ => true
  | _ => false

/-- A row of a points or regions parquet file before deserialization: the
geometry is a WKB payload (modelled by the coordinate pair it encodes). -/
structure RawRow where
  slide : Nat
  cell : Nat
  geom : FVal × FVal
deriving DecidableEq

/-- A deserialized geometry row. -/
structure GeomRow where
  slide : Nat
  cell : Nat
  x : FVal
  y : FVal
deriving DecidableEq

/-- `shapely.wkb.load(io.BytesIO(x))`: decodes the WKB payload into a
geometry.  Decoding performs no finiteness validation. -/
def load_wkb (g : FVal × FVal) : FVal × FVal := g

/-- `deserialize_wkb` (`src/utils.py` lines 19-41): replaces the `geom`
column by the decoded geometry of every row.  No row is dropped, no value
is checked. -/
def deserialize_wkb (df : List RawRow) : List GeomRow :=
  df.map (fun r => ⟨r.slide, r.cell, (load_wkb r.geom).1, (load_wkb r.geom).2⟩)

/-- `get_geometries` (`src/utils.py` lines 44-68), with the parquet file
contents passed explicitly: reads marks, points and regions and
deserializes the point and region geometries.  The function has no
validation or rejection path of any kind. -/
def get_geometries (pointsFile : List RawRow) (marksFile : List Mark)
    (regionsFile : List RawRow) : List Mark × List GeomRow × List GeomRow :=
  (marksFile, deserialize_wkb pointsFile, deserialize_wkb regionsFile)

/-- C9: the load step accepts a points table whose single row has a NaN
x-coordinate and hands it on unchanged — there is no load-time
data-validation error anywhere in `get_geometries` or `deserialize_wkb`,
contrary to the claim; any failure caused by the non-finite coordinate can
only surface later, at spatial-indexing or clustering time. -/
theorem C9_no_load_validation :
    get_geometries [⟨0, 0, (FVal.nan, FVal.fin 0)⟩] [] [] =
      ([], [⟨0, 0, FVal.nan, FVal.fin 0⟩], []) ∧
    FVal.isFinite FVal.nan = false := by
  decide

/-! ### Conflict resolution (`clean_conflicting`, C10) -/

/-- A row of the marks table as seen by `clean_conflicting`
(`src/phenotype_density.py` lines 116-133): the five marker columns the
function reads or writes, plus every other column of the row. -/
structure MRow where
  ck : ℚ
  cd3 : ℚ
  cd20 : ℚ
  cd68 : ℚ
  cd163 : ℚ
  other : List ℚ
deriving DecidableEq

/-- One statement `marks.loc[marks[marks.X == 1].index, "CK"] = 0`: set the
CK column to 0 on the rows satisfying the condition, leave all other rows
and columns alone. -/
def setCKZeroWhere (cond : MRow → Bool) (marks : List MRow) : List MRow :=
  marks.map (fun r => if cond r then { r with ck := 0 } else r)

/-- `clean_conflicting` (`src/phenotype_density.py` lines 116-133): the
four sequential `.loc` assignments for CD3, CD20, CD68 and CD163. -/
def clean_conflicting (marks : List MRow) : List MRow :=
  setCKZeroWhere (fun r => r.cd163 == 1)
    (setCKZeroWhere (fun r => r.cd68 == 1)
      (setCKZeroWhere (fun r => r.cd20 == 1)
        (setCKZeroWhere (fun r => r.cd3 == 1) marks)))

/-- C10: on a marks table with 0/1 marker columns, `clean_conflicting` sets
CK to 0 exactly in the rows where at least one of CD3, CD20, CD68 or CD163
equals 1, leaves CK unchanged in all other rows, and leaves every column
other than CK unchanged in every row. -/
theorem C10_clean_conflicting (marks : List MRow)
    (_h01 : ∀ r ∈ marks,
      (r.cd3 = 0 ∨ r.cd3 = 1) ∧ (r.cd20 = 0 ∨ r.cd20 = 1) ∧
      (r.cd68 = 0 ∨ r.cd68 = 1) ∧ (r.cd163 = 0 ∨ r.cd163 = 1)) :
    ∀ p ∈ marks.zip (clean_conflicting marks),
      (p.2.ck =
        if p.1.cd3 = 1 ∨ p.1.cd20 = 1 ∨ p.1.cd68 = 1 ∨ p.1.cd163 = 1 then 0
        else p.1.ck) ∧
      p.2.cd3 = p.1.cd3 ∧ p.2.cd20 = p.1.cd20 ∧ p.2.cd68 = p.1.cd68 ∧
      p.2.cd163 = p.1.cd163 ∧ p.2.other = p.1.other := by
  intro p hp
  rw [clean_conflicting, setCKZeroWhere, setCKZeroWhere, setCKZeroWhere,
    setCKZeroWhere, List.map_map, List.map_map, List.map_map,
    zip_map_self] at hp
  obtain ⟨r, -, rfl⟩ := List.mem_map.mp hp
  by_cases h3 : r.cd3 = 1 <;> by_cases h20 : r.cd20 = 1 <;>
    by_cases h68 : r.cd68 = 1 <;> by_cases h163 : r.cd163 = 1 <;>
      simp [Function.comp, h3, h20, h68, h163]

/-- C10 witness: a T cell (CD3 positive with CK erroneously positive) and a
pure tumour cell (CK positive only). -/
theorem C10_clean_conflicting_witness :
    (∀ r ∈ [(⟨1, 1, 0, 0, 0, [5]⟩ : MRow), ⟨1, 0, 0, 0, 0, [7]⟩],
      (r.cd3 = 0 ∨ r.cd3 = 1) ∧ (r.cd20 = 0 ∨ r.cd20 = 1) ∧
      (r.cd68 = 0 ∨ r.cd68 = 1) ∧ (r.cd163 = 0 ∨ r.cd163 = 1)) ∧
    (∀ p ∈ ([(⟨1, 1, 0, 0, 0, [5]⟩ : MRow), ⟨1, 0, 0, 0, 0, [7]⟩]).zip
        (clean_conflicting [⟨1, 1, 0, 0, 0, [5]⟩, ⟨1, 0, 0, 0, 0, [7]⟩]),
      (p.2.ck =
        if p.1.cd3 = 1 ∨ p.1.cd20 = 1 ∨ p.1.cd68 = 1 ∨ p.1.cd163 = 1 then 0
        else p.1.ck) ∧
      p.2.cd3 = p.1.cd3 ∧ p.2.cd20 = p.1.cd20 ∧ p.2.cd68 = p.1.cd68 ∧
      p.2.cd163 = p.1.cd163 ∧ p.2.other = p.1.other) := by
  have h01 : ∀ r ∈ [(⟨1, 1, 0, 0, 0, [5]⟩ : MRow), ⟨1, 0, 0, 0, 0, [7]⟩],
      (r.cd3 = 0 ∨ r.cd3 = 1) ∧ (r.cd20 = 0 ∨ r.cd20 = 1) ∧
      (r.cd68 = 0 ∨ r.cd68 = 1) ∧ (r.cd163 = 0 ∨ r.cd163 = 1) := by
    intro r hr
    fin_cases hr <;> norm_num
  exact ⟨h01, C10_clean_conflicting
    [⟨1, 1, 0, 0, 0, [5]⟩, ⟨1, 0, 0, 0, 0, [7]⟩] h01⟩

end CellNiches
